import Mathlib

/-!
Verification development for the PageIndex text pipeline
(`pageindex/page_index_txt.py`).  The Python source is shallowly embedded:
documents are lists of characters, Python `int` is `Int`, dictionaries with
optional keys become structures with `Option` fields, and the external
oracle calls (section detection, token counting, summarisation) are taken
as explicit function parameters, as the specification classifies them as
opaque collaborators.
-/

namespace PageIndexTxt

/-! ## Python string primitives -/

/-- Python `\s` whitespace characters (ASCII fragment, which is all the
inputs in this development use). -/
def isPySpace (c : Char) : Bool :=
  c = ' ' || c = '\t' || c = '\n' || c = '\r' || c = '\x0b' || c = '\x0c'

/-- Sentence-terminating punctuation of the regex `[.!?]\s+`. -/
def isSentencePunct (c : Char) : Bool :=
  c = '.' || c = '!' || c = '?'

/-- Python slice index resolution for a sequence of length `L`: negative
indices count from the end, then the index is clamped to `[0, L]`. -/
def pyIdx (L : Nat) (i : Int) : Nat :=
  if i < 0 then ((L : Int) + i).toNat else min i.toNat L

/-- Python slice `s[a:b]` on a list of characters. -/
def pySlice (s : List Char) (a b : Int) : List Char :=
  (s.take (pyIdx s.length b)).drop (pyIdx s.length a)

/-- Python `str.strip()`: remove leading and trailing whitespace. -/
def pyStrip (s : List Char) : List Char :=
  ((s.dropWhile isPySpace).reverse.dropWhile isPySpace).reverse

/-- Length of the maximal run of whitespace at the head of the list
(the greedy `\s+` of the regex). -/
def spaceRun : List Char → Nat
  | [] => 0
  | c :: cs => if isPySpace c then spaceRun cs + 1 else 0

/-- End positions of the matches of `re.finditer(r'[.!?]\s+', s)`,
relative to the start of `s`, scanning with the running index `i`.
A match starts at a punctuation character followed by at least one
whitespace character and greedily consumes the whitespace run.  Matches of
this pattern can never overlap (a match is punctuation followed by
whitespace only, and every match starts at punctuation), so the plain
left-to-right scan below produces exactly the `finditer` match ends. -/
def sentenceEndsFrom : List Char → Nat → List Nat
  | [], _ => []
  | c :: rest, i =>
    if isSentencePunct c && decide (0 < spaceRun rest) then
      (i + 1 + spaceRun rest) :: sentenceEndsFrom rest (i + 1)
    else
      sentenceEndsFrom rest (i + 1)

/-! ## Windower (`window_text_with_overlap`, source lines 90-131) -/

/-- A window as produced by the windower.  Fields `wtext`/`wstart`/`wend`
embed the dictionary keys `text`/`start`/`end` of the source (the last is
a Lean keyword). -/
structure Window where
  wtext : List Char
  wstart : Int
  wend : Int
deriving DecidableEq, Repr

/-- The window-end computation of one loop iteration: tentative end at
`start + window_size` capped at the document length; if not at the
document end, the last sentence-ending match within the final 200
characters of the window (if any) resnaps the end.  Mirrors source
lines 109-117. -/
def windowEnd (text : List Char) (ws start : Int) : Int :=
  let L : Int := text.length
  let tEnd := min (start + ws) L
  if tEnd < L then
    let ss := max (tEnd - 200) start
    match (sentenceEndsFrom (pySlice text ss tEnd) 0).getLast? with
    | some m => ss + (m : Int)
    | none => tEnd
  else tEnd

/-- The `while start < len(text)` loop of the windower, with explicit
fuel; `none` means the fuel was exhausted before the loop finished.
Mirrors source lines 105-131. -/
def windowLoop (text : List Char) (ws ov : Int) :
    Nat → Int → List Window → Option (List Window)
  | 0, _, _ => none
  | fuel + 1, start, acc =>
    if start < (text.length : Int) then
      let e := windowEnd text ws start
      let acc' := acc ++ [⟨pySlice text start e, start, e⟩]
      if (text.length : Int) ≤ e then some acc'
      else windowLoop text ws ov fuel (e - ov) acc'
    else some acc

/-- `window_text_with_overlap(text, window_size, overlap)` (source lines
90-131), fuelled.  A text no longer than the window size yields the single
whole-text window without entering the loop. -/
def window_text_with_overlap (fuel : Nat) (text : List Char) (ws ov : Int) :
    Option (List Window) :=
  if (text.length : Int) ≤ ws then
    some [⟨text, 0, (text.length : Int)⟩]
  else
    windowLoop text ws ov fuel 0 []

/-! ## Data model -/

/-- A section descriptor as parsed from the oracle's JSON answer, before
offset translation.  Every key may be absent, hence the `Option` fields. -/
structure OracleSection where
  title : Option String
  level : Option Int
  char_start : Option Int
  char_end : Option Int
deriving DecidableEq, Repr

/-- A section after the adapter's offset translation.  `char_start` is
always present on sections the pipeline manipulates (the adapter only
keeps oracle sections carrying both offsets, and the reconciler reads
`section['char_start']` unconditionally); the remaining keys stay
optional, matching the `dict.get` defaults of the source. -/
structure Section where
  title : Option String
  level : Option Int
  char_start : Int
  char_end : Option Int
  chunk_idx : Option Nat
deriving DecidableEq, Repr

/-- A node candidate produced by `extract_section_text` (source lines
180-186): all five keys are always written. -/
structure TxtNode where
  title : String
  level : Int
  char_start : Int
  char_end : Int
  text : List Char
deriving DecidableEq, Repr

/-- A tree node as built by `build_tree_from_txt_nodes` and annotated by
the summary phase.  The source keeps the originating candidate's `level`
only in the builder's stack pairs; it is recorded here on the node as
well so that the nesting invariant can be stated.  `summary` and
`prefix_summary` are absent (`none`) until the summary phase writes
them. -/
inductive TreeNode : Type where
  | mk
      (title : String)
      (node_id : String)
      (text : List Char)
      (char_start : Int)
      (char_end : Int)
      (level : Int)
      (summary : Option (List Char))
      (prefix_summary : Option (List Char))
      (nodes : List TreeNode)
deriving Repr

def TreeNode.title : TreeNode → String
  | .mk t _ _ _ _ _ _ _ _ => t

def TreeNode.node_id : TreeNode → String
  | .mk _ i _ _ _ _ _ _ _ => i

def TreeNode.text : TreeNode → List Char
  | .mk _ _ x _ _ _ _ _ _ => x

def TreeNode.char_start : TreeNode → Int
  | .mk _ _ _ s _ _ _ _ _ => s

def TreeNode.char_end : TreeNode → Int
  | .mk _ _ _ _ e _ _ _ _ => e

def TreeNode.level : TreeNode → Int
  | .mk _ _ _ _ _ l _ _ _ => l

def TreeNode.summary : TreeNode → Option (List Char)
  | .mk _ _ _ _ _ _ s _ _ => s

def TreeNode.prefix_summary : TreeNode → Option (List Char)
  | .mk _ _ _ _ _ _ _ p _ => p

def TreeNode.nodes : TreeNode → List TreeNode
  | .mk _ _ _ _ _ _ _ _ n => n

/-! ## Section Detector Adapter (`detect_semantic_sections`, lines 11-87) -/

/-- Chunk selection of source lines 17-20: `if max_input_tokens:` is
Python truthiness, so both `None` and `0` leave the text unsplit.  The
token-bounded splitter `split_text_into_chunks` lives in the absent
`utils` module and is taken as the parameter `splitFn`. -/
def chunksOf (splitFn : List Char → Nat → List (List Char))
    (text : List Char) (mit : Option Nat) : List (List Char) :=
  match mit with
  | some m => if m = 0 then [text] else splitFn text m
  | none => [text]

/-- The per-chunk loop of `detect_semantic_sections` (source lines
25-76): parse the oracle answer (`none` models an unparsable or non-array
response, degraded to the empty list), keep the sections carrying both
offsets, translate them by the running offset, tag them with the chunk
index, and advance the offset by the full chunk length for every chunk
but the last. -/
def detectLoop (oracle : List Char → Option (List OracleSection)) :
    List (List Char) → Nat → Int → List Section → List Section
  | [], _, _, acc => acc
  | chunk :: rest, idx, offset, acc =>
    let secs := (oracle chunk).getD []
    let translated := secs.filterMap fun s =>
      match s.char_start, s.char_end with
      | some cs, some ce =>
          some ⟨s.title, s.level, cs + offset, some (ce + offset), some idx⟩
      | _, _ => none
    let offset' := if rest = [] then offset else offset + (chunk.length : Int)
    detectLoop oracle rest (idx + 1) offset' (acc ++ translated)

/-- The single whole-document section synthesised when no sections were
detected (source lines 79-85); the source dictionary carries no
`chunk_idx` key. -/
def fallbackSection (text : List Char) : Section :=
  { title := some "Document Content", level := some 1, char_start := 0,
    char_end := some (text.length : Int), chunk_idx := none }

/-- `detect_semantic_sections(text, model, max_input_tokens)` (source
lines 11-87) with the external collaborators as parameters. -/
def detect_semantic_sections (splitFn : List Char → Nat → List (List Char))
    (oracle : List Char → Option (List OracleSection))
    (text : List Char) (mit : Option Nat) : List Section :=
  let all := detectLoop oracle (chunksOf splitFn text mit) 0 0 []
  if all = [] then [fallbackSection text] else all

/-! ## Section Reconciler (`merge_overlapping_sections`, lines 134-161) -/

/-- Sort key of source line 144: `(x['char_start'], x.get('level', 1))`. -/
def sortKey (s : Section) : Int × Int :=
  (s.char_start, s.level.getD 1)

/-- Dedup key of source line 152:
`(section['char_start'], section.get('level', 1), section.get('title', ''))`. -/
def dedupKey (s : Section) : Int × Int × String :=
  (s.char_start, s.level.getD 1, s.title.getD "")

/-- Lexicographic comparison of sort keys, the order Python's `sorted`
uses on the key tuples. -/
def keyLe (a b : Int × Int) : Bool :=
  a.1 < b.1 || (a.1 = b.1 && a.2 ≤ b.2)

/-- The sort-key order as a relation on sections. -/
def keyLeR (a b : Section) : Prop :=
  keyLe (sortKey a) (sortKey b) = true

instance : DecidableRel keyLeR := fun _ _ =>
  inferInstanceAs (Decidable (_ = true))

instance : IsTotal Section keyLeR := by
  constructor
  intro a b
  simp only [keyLeR, keyLe, Bool.or_eq_true, Bool.and_eq_true,
    decide_eq_true_eq]
  omega

instance : IsTrans Section keyLeR := by
  constructor
  intro a b c
  simp only [keyLeR, keyLe, Bool.or_eq_true, Bool.and_eq_true,
    decide_eq_true_eq]
  omega

/-- Model of `sorted(sections, key=lambda x: (x['char_start'], x.get('level', 1)))`.
Python's `sorted` is a stable sort by the key tuples; insertion sort with
the total preorder `keyLeR` is also stable (each element is placed before
the already-sorted elements of equal key, which all originate later in
the input), and any two stable sorts by the same key coincide. -/
def pySortedByKey (l : List Section) : List Section :=
  l.insertionSort keyLeR

/-- The dedup walk of source lines 146-159, with the `seen_positions` set
modelled as the list of keys seen so far. -/
def dedupLoop : List Section → List (Int × Int × String) → List Section
  | [], _ => []
  | s :: rest, seen =>
    if dedupKey s ∈ seen then dedupLoop rest seen
    else s :: dedupLoop rest (dedupKey s :: seen)

/-- `merge_overlapping_sections(sections)` (source lines 134-161). -/
def merge_overlapping_sections (sections : List Section) : List Section :=
  if sections = [] then []
  else dedupLoop (pySortedByKey sections) []

/-! ## Section Materializer (`extract_section_text`, lines 164-189) -/

/-- The enumerated loop of `extract_section_text`: each section's span
runs to the next section's `char_start` when a next section exists, else
to its own `char_end` (document length when that key is absent); the body
text is the whitespace-stripped slice.  The index argument only feeds the
default title `Section {i+1}`. -/
def extractGo (text : List Char) : Nat → List Section → List TxtNode
  | _, [] => []
  | i, [s] =>
    let st := s.char_start
    let en := s.char_end.getD (text.length : Int)
    [⟨s.title.getD ("Section " ++ toString (i + 1)), s.level.getD 1,
      st, en, pyStrip (pySlice text st en)⟩]
  | i, s :: s' :: rest =>
    let st := s.char_start
    let en := s'.char_start
    ⟨s.title.getD ("Section " ++ toString (i + 1)), s.level.getD 1,
      st, en, pyStrip (pySlice text st en)⟩ :: extractGo text (i + 1) (s' :: rest)

/-- `extract_section_text(text, sections)` (source lines 164-189). -/
def extract_section_text (text : List Char) (sections : List Section) :
    List TxtNode :=
  extractGo text 0 sections

/-! ## Tree Builder (`build_tree_from_txt_nodes`, lines 192-229) -/

/-- `str(n).zfill(4)` for a non-negative counter. -/
def zfill4 (n : Nat) : String :=
  let s := toString n
  if s.length < 4 then String.mk (List.replicate (4 - s.length) '0') ++ s else s

/-- A node still open on the builder's stack: its fields plus the
children attached to it so far (in reverse order).  The source keeps the
very same data as a mutable dictionary referenced from the stack; a node
is complete once it is popped, so the pure rendering attaches the
finished subtree to its parent at pop time. -/
structure PNode where
  title : String
  node_id : String
  text : List Char
  char_start : Int
  char_end : Int
  level : Int
  childrenRev : List TreeNode
deriving Repr

/-- Close an open node into a finished `TreeNode`. -/
def closeP (p : PNode) : TreeNode :=
  .mk p.title p.node_id p.text p.char_start p.char_end p.level
    none none p.childrenRev.reverse

/-- Continuation of a pop run: `t` is the subtree just closed, waiting to
be attached to the next stack entry down (or to the reversed root list if
none remains).  If that entry's level is still `>=` the incoming level it
is closed and popped in turn. -/
def popCarry (lvl : Int) (t : TreeNode) :
    List PNode → List TreeNode → List PNode × List TreeNode
  | [], rootsRev => ([], t :: rootsRev)
  | q :: ps, rootsRev =>
    let q' := { q with childrenRev := t :: q.childrenRev }
    if lvl ≤ q.level then popCarry lvl (closeP q') ps rootsRev
    else (q' :: ps, rootsRev)

/-- Pop stack entries while the top's level is `>=` the incoming level
(source lines 218-219); each popped node is attached to the entry below
it, or to the (reversed) root list when the stack empties. -/
def popGE (lvl : Int) (stack : List PNode) (rootsRev : List TreeNode) :
    List PNode × List TreeNode :=
  match stack with
  | [] => ([], rootsRev)
  | p :: ps =>
    if lvl ≤ p.level then popCarry lvl (closeP p) ps rootsRev
    else (p :: ps, rootsRev)

/-- Drain the stack when the input is exhausted, attaching the carried
finished subtree to each entry below in turn. -/
def flushCarry (t : TreeNode) : List PNode → List TreeNode → List TreeNode
  | [], rootsRev => t :: rootsRev
  | q :: ps, rootsRev =>
    flushCarry (closeP { q with childrenRev := t :: q.childrenRev }) ps rootsRev

/-- Drain the stack when the input is exhausted; remaining entries are
attached bottom-up exactly as the pop step attaches them. -/
def flushStack : List PNode → List TreeNode → List TreeNode
  | [], rootsRev => rootsRev
  | p :: ps, rootsRev => flushCarry (closeP p) ps rootsRev

/-- The candidate loop of the builder (source lines 204-227): pop
everything at the same or deeper level, then push the new node with the
next sequential zero-padded id. -/
def buildGo : List TxtNode → Nat → List PNode → List TreeNode → List TreeNode
  | [], _, stack, rootsRev => flushStack stack rootsRev
  | n :: rest, counter, stack, rootsRev =>
    let sr := popGE n.level stack rootsRev
    buildGo rest (counter + 1)
      (⟨n.title, zfill4 counter, n.text, n.char_start, n.char_end, n.level, []⟩ :: sr.1)
      sr.2

/-- `build_tree_from_txt_nodes(node_list)` (source lines 192-229). -/
def build_tree_from_txt_nodes (node_list : List TxtNode) : List TreeNode :=
  if node_list = [] then [] else (buildGo node_list 1 [] []).reverse

/-! ## Summary Orchestrator (lines 232-260) -/

/-- `get_node_summary_txt(node, summary_token_threshold, ...)` (source
lines 232-242).  The token counter `ct` and the summariser `sm` are the
external collaborators; the boolean records whether the summariser oracle
was invoked. -/
def get_node_summary_txt (ct : List Char → Nat) (sm : TreeNode → List Char)
    (th : Nat) (node : TreeNode) : List Char × Bool :=
  if ct node.text < th then (node.text, false) else (sm node, true)

/-- Modelled from the spec: `structure_to_list` (in the absent `utils`
module) flattens the tree into its full node list, and
`generate_summaries_for_txt_structure` then writes each node's computed
summary into `summary` for leaves and `prefix_summary` for inner nodes.
Since every node is written exactly once, independently, the flatten /
gather / zip of the source is rendered as a structural map. -/
def annotateTree (ct : List Char → Nat) (sm : TreeNode → List Char)
    (th : Nat) : TreeNode → TreeNode
  | .mk t id tx cs ce lv s ps ns =>
    let value := (get_node_summary_txt ct sm th (.mk t id tx cs ce lv s ps ns)).1
    let children := ns.attach.map fun c => annotateTree ct sm th c.1
    if ns.isEmpty then .mk t id tx cs ce lv (some value) ps children
    else .mk t id tx cs ce lv s (some value) children
termination_by n => sizeOf n
decreasing_by
  have := List.sizeOf_lt_of_mem c.2
  simp only [TreeNode.mk.sizeOf_spec]
  omega

/-- `generate_summaries_for_txt_structure(structure, ...)` (source lines
245-260) over the list of root nodes. -/
def generate_summaries_for_txt_structure (ct : List Char → Nat)
    (sm : TreeNode → List Char) (th : Nat)
    (structure_ : List TreeNode) : List TreeNode :=
  structure_.map (annotateTree ct sm th)

/-! ## Top-level pipeline (`txt_to_tree`, lines 263-361) -/

/-- The result dictionary of `txt_to_tree`; `doc_structure` embeds the
`structure` key (a Lean keyword). -/
structure DocumentResult where
  doc_name : String
  doc_description : Option String
  doc_structure : List TreeNode
deriving Repr

/-- Field order passed to `format_structure` when node text is kept. -/
def orderWithText : List String :=
  ["title", "node_id", "summary", "prefix_summary", "text",
   "char_start", "char_end", "nodes"]

/-- Field order passed to `format_structure` when node text is dropped. -/
def orderNoText : List String :=
  ["title", "node_id", "summary", "prefix_summary",
   "char_start", "char_end", "nodes"]

/-- `txt_to_tree` (source lines 263-361).  File reading is replaced by the
document text and name; the helpers living in the absent `utils` module
(`split_text_into_chunks`, `write_node_id`, `format_structure`,
`create_clean_structure_for_description`, `generate_doc_description`,
`count_tokens`, `generate_node_summary`) and the detection oracle are
parameters.  Note that `window_size` and `overlap` are accepted, printed
by the source, and never passed to any processing step. -/
def txt_to_tree
    (splitFn : List Char → Nat → List (List Char))
    (oracle : List Char → Option (List OracleSection))
    (ct : List Char → Nat) (sm : TreeNode → List Char)
    (writeNodeId : List TreeNode → List TreeNode)
    (formatStructure : List TreeNode → List String → List TreeNode)
    (createClean : List TreeNode → List TreeNode)
    (describe : List TreeNode → String)
    (docName : String) (text : List Char)
    (window_size overlap : Int)
    (if_add_node_summary : String) (summary_token_threshold : Nat)
    (if_add_doc_description : String) (if_add_node_text : String)
    (if_add_node_id : String) (max_input_tokens : Option Nat) :
    DocumentResult :=
  let sections := detect_semantic_sections splitFn oracle text max_input_tokens
  let sections := merge_overlapping_sections sections
  let nodes_with_content := extract_section_text text sections
  let tree := build_tree_from_txt_nodes nodes_with_content
  let tree := if if_add_node_id = "yes" then writeNodeId tree else tree
  if if_add_node_summary = "yes" then
    let tree := formatStructure tree orderWithText
    let tree := generate_summaries_for_txt_structure ct sm
                  summary_token_threshold tree
    let tree := if if_add_node_text = "no" then formatStructure tree orderNoText
                else tree
    if if_add_doc_description = "yes" then
      { doc_name := docName,
        doc_description := some (describe (createClean tree)),
        doc_structure := tree }
    else
      { doc_name := docName, doc_description := none, doc_structure := tree }
  else
    let tree := if if_add_node_text = "yes" then formatStructure tree orderWithText
                else formatStructure tree orderNoText
    { doc_name := docName, doc_description := none, doc_structure := tree }

/-! ## Inputs and predicates used by the claim statements -/

/-- The failing input for claim C2: sixteen characters whose only sentence
boundary sits five characters in. -/
def txtC2 : List Char := "abc. fghijklmnop".data

/-- Modelled from the spec: `split_text_into_chunks` (in the absent
`utils` module) splits a text into consecutive sub-chunks with a fixed
positive (500-token) overlap.  `ChunkCover text pos chunks` renders the
structural content of that contract: every chunk is a slice of the text,
each chunk after the first starts strictly inside its predecessor
(positive overlap) and strictly after it (progress), and the last chunk
reaches the end of the text. -/
def ChunkCover (text : List Char) : Nat → List (List Char) → Prop
  | _, [] => False
  | pos, [c] => c ≠ [] ∧ c = text.drop pos
  | pos, c :: c' :: rest =>
    c = (text.drop pos).take c.length ∧
    ∃ pos' : Nat, pos < pos' ∧ pos' < pos + c.length ∧
      ChunkCover text pos' (c' :: rest)

/-- The hypothesis of claim C1 on one oracle result: its window-local
offsets lie within `[0, len(sub-chunk)]` (and are consistently
ordered). -/
def oracleLocal (chunk : List Char) (s : OracleSection) : Bool :=
  (match s.char_start with
   | some cs => decide (0 ≤ cs) && decide (cs ≤ (chunk.length : Int))
   | none => true) &&
  (match s.char_end with
   | some ce => decide (0 ≤ ce) && decide (ce ≤ (chunk.length : Int))
   | none => true) &&
  (match s.char_start, s.char_end with
   | some cs, some ce => decide (cs ≤ ce)
   | _, _ => true)

/-- The failing input for claim C1: a ten character document split into
two six character sub-chunks overlapping on two characters. -/
def txtC1 : List Char := "0123456789".data

/-- The overlapping spec-conformant chunking of `txtC1`. -/
def chunksC1 : List (List Char) := ["012345".data, "456789".data]

/-- The oracle replies for claim C1: nothing in the first chunk, one
full-chunk section in the second — all offsets within the sub-chunk. -/
def oracleC1 : List Char → Option (List OracleSection) := fun chunk =>
  if chunk = "456789".data then
    some [{ title := none, level := none, char_start := some 0, char_end := some 6 }]
  else some []

/-- Spec-side definition of the reconciler, following the specification's
words: sort by `(char_start, level)` ascending, then walk the sorted
sequence accumulating the output and the set of seen
`(char_start, level, title)` keys, dropping every section whose key was
already seen. -/
def reconcileSpec (S : List Section) : List Section :=
  ((pySortedByKey S).foldl
    (fun p s => if dedupKey s ∈ p.2 then p else (p.1 ++ [s], dedupKey s :: p.2))
    ([], [])).1

/-- Adjacency of consecutive windows: the next window starts no later
than the previous one ends, and the two overlap by at most `ov`
characters. -/
def Adj (ov : Int) (w1 w2 : Window) : Prop :=
  w2.wstart ≤ w1.wend ∧ w1.wend - w2.wstart ≤ ov

mutual

/-- Strict nesting: every direct child of the node carries a source level
strictly greater than the node's own, recursively (hence every descendant
is strictly deeper than every one of its ancestors). -/
def StrictNestB : TreeNode → Bool
  | .mk _ _ _ _ _ lvl _ _ ns => StrictNestList lvl ns

/-- All members of the list are strictly deeper than `lvl` and strictly
nested themselves. -/
def StrictNestList : Int → List TreeNode → Bool
  | _, [] => true
  | lvl, c :: cs => (decide (lvl < c.level) && StrictNestB c) && StrictNestList lvl cs

end

/-- Every child accumulated on an open stack node is strictly deeper than
the node and strictly nested. -/
def GoodP (p : PNode) : Prop :=
  ∀ c ∈ p.childrenRev, p.level < c.level ∧ StrictNestB c = true

/-- The builder's stack invariant: levels strictly decrease downwards
(the head is the deepest open node) and every entry is good. -/
def GoodStack (stack : List PNode) : Prop :=
  List.Chain' (fun p q => q.level < p.level) stack ∧ ∀ p ∈ stack, GoodP p

/-- Every already-finished root is strictly nested. -/
def GoodRoots (r : List TreeNode) : Prop :=
  ∀ t ∈ r, StrictNestB t = true

/-! ## General lemmas -/

lemma spaceRun_le (s : List Char) : spaceRun s ≤ s.length := by
  induction s with
  | nil => simp [spaceRun]
  | cons c cs ih =>
    simp only [spaceRun, List.length_cons]
    split <;> omega

lemma sentenceEndsFrom_le {s : List Char} {i m : Nat}
    (h : m ∈ sentenceEndsFrom s i) : m ≤ i + s.length := by
  induction s generalizing i with
  | nil => simp [sentenceEndsFrom] at h
  | cons c cs ih =>
    simp only [sentenceEndsFrom] at h
    split at h
    · rcases List.mem_cons.mp h with h' | h'
      · have := spaceRun_le cs
        subst h'
        simp only [List.length_cons]
        omega
      · have := ih h'
        simp only [List.length_cons]
        omega
    · have := ih h
      simp only [List.length_cons]
      omega

/-! ## Claim C3: `window_size` and `overlap` do not influence the result -/

/-- Claim C3: for every document and every fixed remaining configuration,
two runs of `txt_to_tree` that differ only in the `window_size` and
`overlap` arguments produce identical `DocumentResult`s: the
character-based windower is never invoked by the `txt_to_tree` pipeline,
so its two parameters have no effect on the output. -/
theorem txt_to_tree_ignores_window_params
    (splitFn : List Char → Nat → List (List Char))
    (oracle : List Char → Option (List OracleSection))
    (ct : List Char → Nat) (sm : TreeNode → List Char)
    (writeNodeId : List TreeNode → List TreeNode)
    (formatStructure : List TreeNode → List String → List TreeNode)
    (createClean : List TreeNode → List TreeNode)
    (describe : List TreeNode → String)
    (docName : String) (text : List Char)
    (ws₁ ov₁ ws₂ ov₂ : Int)
    (sum desc ntext nid : String) (thr : Nat) (mit : Option Nat) :
    txt_to_tree splitFn oracle ct sm writeNodeId formatStructure createClean
      describe docName text ws₁ ov₁ sum thr desc ntext nid mit =
    txt_to_tree splitFn oracle ct sm writeNodeId formatStructure createClean
      describe docName text ws₂ ov₂ sum thr desc ntext nid mit := rfl

/-! ## Claim C2: the windower does not always advance / terminate -/


lemma windowLoop_txtC2_none :
    ∀ (fuel : Nat) (acc : List Window),
      windowLoop txtC2 10 5 fuel 0 acc = none := by
  intro fuel
  induction fuel with
  | zero => intro acc; rfl
  | succ n ih =>
    intro acc
    have h1 : windowEnd txtC2 10 0 = 5 := by decide
    have hlen : ((txtC2.length : Nat) : Int) = 16 := by decide
    simp only [windowLoop, h1, hlen]
    norm_num
    exact ih _

/-- Claim C2 (refuting the code): with `window_size = 10` and
`overlap = 5` (so `0 ≤ overlap < window_size` holds) on the sixteen
character text `txtC2`, the first iteration's sentence-boundary snap
moves the window end back to `5`, hence the next start is
`5 - overlap = 0` again: the start does not strictly increase and the
loop never terminates, whatever the fuel. -/
theorem windower_nontermination :
    ((0 : Int) ≤ 5 ∧ (5 : Int) < 10 ∧ (10 : Int) < (txtC2.length : Int)) ∧
    windowEnd txtC2 10 0 = 5 ∧
    windowEnd txtC2 10 0 - 5 = 0 ∧
    ∀ fuel, window_text_with_overlap fuel txtC2 10 5 = none := by
  refine ⟨⟨by norm_num, by norm_num, by decide⟩, by decide, by decide, ?_⟩
  intro fuel
  rw [window_text_with_overlap, if_neg (by decide)]
  exact windowLoop_txtC2_none fuel []

/-! ## Claim C1: offset translation can leave the document -/

/-- Claim C1 (refuting the code): the adapter adds the full length of
every earlier sub-chunk to the oracle's window-local offsets (source
lines 66-76), although consecutive sub-chunks overlap; on the
spec-conformant chunking `chunksC1` of the ten character document
`txtC1`, an oracle answer whose local offsets lie within the sub-chunk is
translated to `char_end = 12 > 10 = len(document)`, violating the claimed
invariant `char_end <= len(document)`. -/
theorem adapter_offset_translation_overflow :
    ChunkCover txtC1 0 chunksC1 ∧
    (chunksC1.all fun chunk =>
      ((oracleC1 chunk).getD []).all (oracleLocal chunk)) = true ∧
    detect_semantic_sections (fun _ _ => chunksC1) oracleC1 txtC1 (some 1) =
      [{ title := none, level := none, char_start := 6, char_end := some 12,
         chunk_idx := some 1 }] ∧
    ¬ ((12 : Int) ≤ (txtC1.length : Int)) := by
  refine ⟨?_, by decide, by decide, by decide⟩
  simp only [chunksC1, ChunkCover]
  exact ⟨by decide, 4, by decide, by decide, by decide, by decide⟩

/-! ## Claim C8: the detector never returns an empty list -/

lemma detectLoop_all_unparsed {oracle : List Char → Option (List OracleSection)}
    (h : ∀ c, oracle c = none) :
    ∀ (chunks : List (List Char)) (idx : Nat) (off : Int) (acc : List Section),
      detectLoop oracle chunks idx off acc = acc := by
  intro chunks
  induction chunks with
  | nil => intro idx off acc; rfl
  | cons c rest ih =>
    intro idx off acc
    simp only [detectLoop, h c, Option.getD_none, List.filterMap_nil,
      List.append_nil]
    exact ih _ _ _

/-- Claim C8: the Section Detector Adapter never returns an empty
section list; whenever the per-chunk loop collected zero sections —
in particular when every oracle response is unparsable (`none`) — the
result is exactly one synthesized section spanning `[0, len(text)]` at
level 1 with the generic title. -/
theorem detector_nonempty_fallback
    (splitFn : List Char → Nat → List (List Char))
    (oracle : List Char → Option (List OracleSection))
    (text : List Char) (mit : Option Nat) :
    detect_semantic_sections splitFn oracle text mit ≠ [] ∧
    (detectLoop oracle (chunksOf splitFn text mit) 0 0 [] = [] →
      detect_semantic_sections splitFn oracle text mit = [fallbackSection text]) ∧
    ((∀ chunk, oracle chunk = none) →
      detect_semantic_sections splitFn oracle text mit = [fallbackSection text]) := by
  refine ⟨?_, ?_, ?_⟩
  · unfold detect_semantic_sections
    by_cases h : detectLoop oracle (chunksOf splitFn text mit) 0 0 [] = [] <;>
      simp [h]
  · intro h
    unfold detect_semantic_sections
    simp [h]
  · intro h
    unfold detect_semantic_sections
    simp [detectLoop_all_unparsed h]

/-- Witness for claim C8 at a concrete input: an oracle that always
fails to parse still yields the single whole-document section. -/
theorem detector_nonempty_fallback_witness :
    detect_semantic_sections (fun t _ => [t]) (fun _ => none) "hi".data none =
      [fallbackSection "hi".data] :=
  (detector_nonempty_fallback (fun t _ => [t]) (fun _ => none) "hi".data
    none).2.2 (fun _ => rfl)

/-! ## Claim C7: the materializer's span resolution -/

lemma extractGo_spec (text : List Char) (sections : List Section) :
    ∀ (j i : Nat) (s : Section), sections[i]? = some s →
      ∃ nd, (extractGo text j sections)[i]? = some nd ∧
        nd.char_start = s.char_start ∧
        nd.char_end = (match sections[i + 1]? with
          | some s2 => s2.char_start
          | none => s.char_end.getD (text.length : Int)) ∧
        nd.text = pyStrip (pySlice text s.char_start nd.char_end) := by
  induction sections with
  | nil => intro j i s hs; simp at hs
  | cons a tl ih =>
    intro j i s hs
    cases tl with
    | nil =>
      cases i with
      | zero =>
        simp only [List.getElem?_cons_zero, Option.some.injEq] at hs
        subst hs
        exact ⟨⟨a.title.getD ("Section " ++ toString (j + 1)), a.level.getD 1,
          a.char_start, a.char_end.getD (text.length : Int),
          pyStrip (pySlice text a.char_start
            (a.char_end.getD (text.length : Int)))⟩, rfl, rfl, rfl, rfl⟩
      | succ i' => simp at hs
    | cons b tl2 =>
      cases i with
      | zero =>
        simp only [List.getElem?_cons_zero, Option.some.injEq] at hs
        subst hs
        refine ⟨⟨a.title.getD ("Section " ++ toString (j + 1)), a.level.getD 1,
          a.char_start, b.char_start,
          pyStrip (pySlice text a.char_start b.char_start)⟩, ?_, rfl, ?_, rfl⟩
        · simp [extractGo]
        · simp
      | succ i' =>
        have h' : (b :: tl2)[i']? = some s := by simpa using hs
        obtain ⟨nd, h1, h2, h3, h4⟩ := ih (j + 1) i' s h'
        refine ⟨nd, ?_, h2, ?_, h4⟩
        · simpa [extractGo] using h1
        · simpa using h3

/-- Claim C7: the Section Materializer resolves section `i`'s span to end
at section `i+1`'s `char_start` when a following section exists, else at
section `i`'s own `char_end` (document length when that key is absent),
and its extracted text is the whitespace-trimmed document slice over that
span. -/
theorem materializer_spans (text : List Char) (sections : List Section)
    (i : Nat) (s : Section) (hs : sections[i]? = some s) :
    ∃ nd, (extract_section_text text sections)[i]? = some nd ∧
      nd.char_start = s.char_start ∧
      nd.char_end = (match sections[i + 1]? with
        | some s2 => s2.char_start
        | none => s.char_end.getD (text.length : Int)) ∧
      nd.text = pyStrip (pySlice text s.char_start nd.char_end) :=
  extractGo_spec text sections 0 i s hs

/-- Witness for claim C7 at a concrete input: the first of two sections
ends at the second one's `char_start` (7), overriding its own
`char_end` (3). -/
theorem materializer_spans_witness :
    ∃ nd, (extract_section_text "  hello  world".data
        [⟨none, none, 0, some 3, none⟩, ⟨none, some 2, 7, some 99, none⟩])[0]? =
          some nd ∧
      nd.char_start = (⟨none, none, 0, some 3, none⟩ : Section).char_start ∧
      nd.char_end = (match ([⟨none, none, 0, some 3, none⟩,
          ⟨none, some 2, 7, some 99, none⟩] : List Section)[0 + 1]? with
        | some s2 => s2.char_start
        | none => (Option.some (3 : Int)).getD ("  hello  world".data.length : Int)) ∧
      nd.text = pyStrip (pySlice "  hello  world".data
        (⟨none, none, 0, some 3, none⟩ : Section).char_start nd.char_end) :=
  materializer_spans "  hello  world".data
    [⟨none, none, 0, some 3, none⟩, ⟨none, some 2, 7, some 99, none⟩]
    0 ⟨none, none, 0, some 3, none⟩ rfl

/-! ## Claims C5 and C6: the reconciler -/

lemma dedupLoop_sublist :
    ∀ (l : List Section) (seen : List (Int × Int × String)),
      List.Sublist (dedupLoop l seen) l := by
  intro l
  induction l with
  | nil => intro seen; simp [dedupLoop]
  | cons s rest ih =>
    intro seen
    simp only [dedupLoop]
    split
    · exact (ih seen).trans (List.sublist_cons_self s rest)
    · exact (ih _).cons₂ s

lemma dedupLoop_seen_absent :
    ∀ (l : List Section) (seen : List (Int × Int × String)) (k),
      k ∈ seen → k ∉ (dedupLoop l seen).map dedupKey := by
  intro l
  induction l with
  | nil => intro seen k hk; simp [dedupLoop]
  | cons s rest ih =>
    intro seen k hk
    simp only [dedupLoop]
    split
    · exact ih seen k hk
    · rename_i hns
      simp only [List.map_cons, List.mem_cons, not_or]
      exact ⟨fun h => hns (h ▸ hk), ih _ k (List.mem_cons_of_mem _ hk)⟩

lemma dedupLoop_key_retained :
    ∀ (l : List Section) (seen : List (Int × Int × String)) (s : Section),
      s ∈ l → dedupKey s ∉ seen →
      dedupKey s ∈ (dedupLoop l seen).map dedupKey := by
  intro l
  induction l with
  | nil => intro seen s hs; simp at hs
  | cons a rest ih =>
    intro seen s hs hns
    simp only [dedupLoop]
    rcases List.mem_cons.mp hs with h | h
    · subst h
      rw [if_neg hns]
      simp
    · split
      · exact ih _ s h hns
      · by_cases hk : dedupKey s = dedupKey a
        · simp [hk]
        · have : dedupKey s ∉ dedupKey a :: seen := by
            simp only [List.mem_cons, not_or]; exact ⟨hk, hns⟩
          simpa using Or.inr (ih _ s h this)

lemma dedupLoop_pairwise_ne :
    ∀ (l : List Section) (seen : List (Int × Int × String)),
      (dedupLoop l seen).Pairwise (fun a b => dedupKey a ≠ dedupKey b) := by
  intro l
  induction l with
  | nil => intro seen; simp [dedupLoop]
  | cons s rest ih =>
    intro seen
    simp only [dedupLoop]
    split
    · exact ih seen
    · refine List.Pairwise.cons ?_ (ih _)
      intro b hb heq
      have hmem : dedupKey b ∈ (dedupLoop rest (dedupKey s :: seen)).map dedupKey :=
        List.mem_map_of_mem dedupKey hb
      rw [← heq] at hmem
      exact dedupLoop_seen_absent rest _ (dedupKey s) (List.mem_cons_self _ _) hmem

lemma dedupLoop_id_of_clean :
    ∀ (l : List Section) (seen : List (Int × Int × String)),
      l.Pairwise (fun a b => dedupKey a ≠ dedupKey b) →
      (∀ s ∈ l, dedupKey s ∉ seen) →
      dedupLoop l seen = l := by
  intro l
  induction l with
  | nil => intro seen _ _; rfl
  | cons s rest ih =>
    intro seen hp hseen
    have hp' := List.pairwise_cons.mp hp
    simp only [dedupLoop, if_neg (hseen s (List.mem_cons_self _ _))]
    congr 1
    refine ih _ hp'.2 ?_
    intro t ht
    simp only [List.mem_cons, not_or]
    exact ⟨fun h => hp'.1 t ht h.symm, hseen t (List.mem_cons_of_mem _ ht)⟩

lemma pySortedByKey_sorted (l : List Section) :
    List.Sorted keyLeR (pySortedByKey l) :=
  List.sorted_insertionSort keyLeR l

lemma pySortedByKey_of_sorted {l : List Section}
    (h : List.Sorted keyLeR l) : pySortedByKey l = l :=
  h.insertionSort_eq

lemma merge_eq_dedup {S : List Section} (hS : S ≠ []) :
    merge_overlapping_sections S = dedupLoop (pySortedByKey S) [] := by
  rw [merge_overlapping_sections, if_neg hS]

lemma merge_sorted (S : List Section) :
    List.Sorted keyLeR (merge_overlapping_sections S) := by
  by_cases hS : S = []
  · subst hS; simp [merge_overlapping_sections, List.Sorted]
  · rw [merge_eq_dedup hS]
    exact List.Pairwise.sublist (dedupLoop_sublist _ _) (pySortedByKey_sorted S)

lemma merge_pairwise_ne (S : List Section) :
    (merge_overlapping_sections S).Pairwise
      (fun a b => dedupKey a ≠ dedupKey b) := by
  by_cases hS : S = []
  · subst hS; simp [merge_overlapping_sections]
  · rw [merge_eq_dedup hS]
    exact dedupLoop_pairwise_ne _ _

/-- Claim C6: the Section Reconciler is idempotent — applying
`merge_overlapping_sections` to its own output changes nothing (the
output is already sorted and free of duplicate
`(char_start, level, title)` keys). -/
theorem reconciler_idempotent (S : List Section) :
    merge_overlapping_sections (merge_overlapping_sections S) =
      merge_overlapping_sections S := by
  by_cases hS : S = []
  · subst hS; rfl
  · rw [merge_eq_dedup hS]
    by_cases hl : dedupLoop (pySortedByKey S) [] = []
    · rw [hl]; rfl
    · rw [merge_eq_dedup hl,
        pySortedByKey_of_sorted (List.Pairwise.sublist (dedupLoop_sublist _ _)
          (pySortedByKey_sorted S))]
      exact dedupLoop_id_of_clean _ [] (dedupLoop_pairwise_ne _ _)
        (by simp)


lemma foldl_dedup_aux :
    ∀ (l : List Section) (acc : List Section) (seen : List (Int × Int × String)),
      (l.foldl
        (fun p s => if dedupKey s ∈ p.2 then p else (p.1 ++ [s], dedupKey s :: p.2))
        (acc, seen)).1 = acc ++ dedupLoop l seen := by
  intro l
  induction l with
  | nil => intro acc seen; simp [dedupLoop]
  | cons s rest ih =>
    intro acc seen
    simp only [List.foldl_cons, dedupLoop]
    split
    · exact ih acc seen
    · rw [ih (acc ++ [s]) (dedupKey s :: seen)]
      simp

/-- Claim C5: the reconciler returns the input sections sorted by
`char_start` ascending with ties broken by `level` ascending, with
exactly the sections whose `(char_start, level, title)` key duplicates an
earlier-seen key removed (this is the refinement equation against
`reconcileSpec`, whose walk keeps the first occurrence of each key); no
two output sections share a key, and every input section's key survives
into the output. -/
theorem reconciler_functional_spec (S : List Section) :
    merge_overlapping_sections S = reconcileSpec S ∧
    List.Sorted keyLeR (merge_overlapping_sections S) ∧
    (merge_overlapping_sections S).Pairwise
      (fun a b => dedupKey a ≠ dedupKey b) ∧
    ∀ s ∈ S, ∃ t ∈ merge_overlapping_sections S, dedupKey t = dedupKey s := by
  refine ⟨?_, merge_sorted S, merge_pairwise_ne S, ?_⟩
  · by_cases hS : S = []
    · subst hS; rfl
    · rw [merge_eq_dedup hS, reconcileSpec, foldl_dedup_aux]
      simp
  · intro s hs
    have hS : S ≠ [] := by rintro rfl; simp at hs
    rw [merge_eq_dedup hS]
    have hmem : s ∈ pySortedByKey S := by
      simpa [pySortedByKey] using hs
    have := dedupLoop_key_retained (pySortedByKey S) [] s hmem (by simp)
    obtain ⟨t, ht, heq⟩ := List.mem_map.mp this
    exact ⟨t, ht, heq⟩

/-- Witness for claim C5 at a concrete input: of two equal-key "Intro"
sections, a representative of the shared key is in the output. -/
theorem reconciler_functional_spec_witness :
    ∃ t ∈ merge_overlapping_sections
        [⟨some "Intro", some 1, 0, some 5, some 0⟩,
         ⟨some "Intro", some 1, 0, some 6, some 1⟩],
      dedupKey t = dedupKey ⟨some "Intro", some 1, 0, some 5, some 0⟩ :=
  (reconciler_functional_spec
    [⟨some "Intro", some 1, 0, some 5, some 0⟩,
     ⟨some "Intro", some 1, 0, some 6, some 1⟩]).2.2.2
    ⟨some "Intro", some 1, 0, some 5, some 0⟩ (by simp)

/-! ## Claim C9: windower coverage on terminating runs -/

lemma pyIdx_cast (n : Nat) (i : Int) :
    (0 ≤ i ∧ i ≤ n ∧ (pyIdx n i : Int) = i) ∨
    (0 ≤ i ∧ (n : Int) < i ∧ (pyIdx n i : Int) = n) ∨
    (i < 0 ∧ 0 ≤ (n : Int) + i ∧ (pyIdx n i : Int) = n + i) ∨
    (i < 0 ∧ (n : Int) + i < 0 ∧ (pyIdx n i : Int) = 0) := by
  unfold pyIdx
  split
  · rename_i h
    by_cases h2 : 0 ≤ (n : Int) + i
    · exact Or.inr (Or.inr (Or.inl ⟨h, h2, by omega⟩))
    · exact Or.inr (Or.inr (Or.inr ⟨h, by omega, by omega⟩))
  · rename_i h
    by_cases h2 : i ≤ (n : Int)
    · refine Or.inl ⟨by omega, h2, ?_⟩
      rw [min_eq_left (by omega : i.toNat ≤ n)]
      omega
    · refine Or.inr (Or.inl ⟨by omega, by omega, ?_⟩)
      rw [min_eq_right (by omega : n ≤ i.toNat)]

lemma pySlice_length (s : List Char) (a b : Int) :
    (pySlice s a b).length = min (pyIdx s.length b) s.length - pyIdx s.length a := by
  simp [pySlice]

/-- The end of every window stays within the document: the raw cap is
`min (start + ws) L ≤ L`, and a sentence-boundary snap can only move the
end towards the start of the search slice, which lies inside the
document. -/
lemma windowEnd_le (text : List Char) {ws start : Int} (hws : 0 ≤ ws)
    (hstart : start < (text.length : Int)) :
    windowEnd text ws start ≤ (text.length : Int) := by
  unfold windowEnd
  dsimp only
  split
  · rename_i h
    split
    · rename_i m heq
      have hm : m ∈ sentenceEndsFrom
          (pySlice text (max (min (start + ws) ↑text.length - 200) start)
            (min (start + ws) ↑text.length)) 0 :=
        List.mem_of_getLast?_eq_some heq
      have hml := sentenceEndsFrom_le hm
      rw [pySlice_length] at hml
      have hBle : pyIdx text.length (min (start + ws) ↑text.length) ≤ text.length :=
        by rcases pyIdx_cast text.length (min (start + ws) ↑text.length) with
          ⟨_, _, e⟩ | ⟨_, _, e⟩ | ⟨_, _, e⟩ | ⟨_, _, e⟩ <;> omega
      rw [min_eq_left hBle] at hml
      have hss_le : max (min (start + ws) ↑text.length - 200) start ≤
          min (start + ws) ↑text.length :=
        max_le (by omega) (le_min (by omega) (le_of_lt hstart))
      rcases pyIdx_cast text.length
          (max (min (start + ws) ↑text.length - 200) start) with
        ⟨hA1, hA2, hA3⟩ | ⟨hA1, hA2, hA3⟩ | ⟨hA1, hA2, hA3⟩ | ⟨hA1, hA2, hA3⟩ <;>
      rcases pyIdx_cast text.length (min (start + ws) ↑text.length) with
        ⟨hB1, hB2, hB3⟩ | ⟨hB1, hB2, hB3⟩ | ⟨hB1, hB2, hB3⟩ | ⟨hB1, hB2, hB3⟩ <;>
      omega
    · exact le_of_lt h
  · exact min_le_right _ _


lemma windowLoop_spec (text : List Char) (ws ov : Int)
    (hws : 0 ≤ ws) (hov : 0 ≤ ov) :
    ∀ (fuel : Nat) (start : Int) (acc out : List Window),
      start < (text.length : Int) →
      windowLoop text ws ov fuel start acc = some out →
      ∃ w tail, out = acc ++ w :: tail ∧ w.wstart = start ∧
        (∀ v ∈ w :: tail, v.wend ≤ (text.length : Int)) ∧
        (∀ v, (w :: tail).getLast? = some v → v.wend = (text.length : Int)) ∧
        List.Chain' (Adj ov) (w :: tail) := by
  intro fuel
  induction fuel with
  | zero => intro start acc out _ hrun; exact absurd hrun (by simp [windowLoop])
  | succ n ih =>
    intro start acc out hstart hrun
    rw [windowLoop, if_pos hstart] at hrun
    dsimp only at hrun
    have hEle : windowEnd text ws start ≤ (text.length : Int) :=
      windowEnd_le text hws hstart
    by_cases hend : (text.length : Int) ≤ windowEnd text ws start
    · rw [if_pos hend] at hrun
      have hEeq : windowEnd text ws start = (text.length : Int) :=
        le_antisymm hEle hend
      refine ⟨⟨pySlice text start (windowEnd text ws start), start,
        windowEnd text ws start⟩, [], ?_, rfl, ?_, ?_, ?_⟩
      · simpa using hrun.symm
      · intro v hv
        simp only [List.mem_singleton] at hv
        subst hv
        exact hEle
      · intro v hv
        simp only [List.getLast?_singleton, Option.some.injEq] at hv
        subst hv
        exact hEeq
      · simp
    · rw [if_neg hend] at hrun
      have hstart' : windowEnd text ws start - ov < (text.length : Int) := by
        omega
      obtain ⟨w', tail', hout, hst', hbounds, hlast, hchain⟩ :=
        ih (windowEnd text ws start - ov)
          (acc ++ [⟨pySlice text start (windowEnd text ws start), start,
            windowEnd text ws start⟩]) out hstart' hrun
      refine ⟨⟨pySlice text start (windowEnd text ws start), start,
        windowEnd text ws start⟩, w' :: tail', by simpa using hout, rfl,
        ?_, ?_, ?_⟩
      · intro v hv
        rcases List.mem_cons.mp hv with h | h
        · subst h; exact hEle
        · exact hbounds v h
      · intro v hv
        rw [List.getLast?_cons_cons] at hv
        exact hlast v hv
      · refine List.chain'_cons.mpr ⟨?_, hchain⟩
        constructor
        · rw [hst']; dsimp only; omega
        · rw [hst']; dsimp only; omega

/-- Claim C9: on every terminating run with `window_size > overlap ≥ 0`,
the returned windows tile the document contiguously — the list is
nonempty, the first window starts at 0, every window ends within the
document, the last window ends at `len(text)`, consecutive windows
overlap by at most `overlap` characters — and a text no longer than the
window size yields exactly the single whole-text window. -/
theorem windower_coverage (fuel : Nat) (text : List Char) (ws ov : Int)
    (out : List Window) (hov : 0 ≤ ov) (hwo : ov < ws)
    (hrun : window_text_with_overlap fuel text ws ov = some out) :
    out ≠ [] ∧
    (∀ w ∈ out, w.wend ≤ (text.length : Int)) ∧
    (∀ w, out.head? = some w → w.wstart = 0) ∧
    (∀ w, out.getLast? = some w → w.wend = (text.length : Int)) ∧
    List.Chain' (Adj ov) out ∧
    ((text.length : Int) ≤ ws → out = [⟨text, 0, (text.length : Int)⟩]) := by
  unfold window_text_with_overlap at hrun
  by_cases hshort : (text.length : Int) ≤ ws
  · rw [if_pos hshort] at hrun
    obtain rfl : [(⟨text, 0, (text.length : Int)⟩ : Window)] = out :=
      Option.some_injective _ hrun
    refine ⟨by simp, ?_, ?_, ?_, by simp, fun _ => rfl⟩
    · intro w hw
      simp only [List.mem_singleton] at hw
      subst hw; exact le_refl _
    · intro w hw
      simp only [List.head?_cons, Option.some.injEq] at hw
      subst hw; rfl
    · intro w hw
      simp only [List.getLast?_singleton, Option.some.injEq] at hw
      subst hw; rfl
  · rw [if_neg hshort] at hrun
    have hstart : (0 : Int) < (text.length : Int) := by omega
    obtain ⟨w, tail, hout, hst, hbounds, hlast, hchain⟩ :=
      windowLoop_spec text ws ov (by omega) hov fuel 0 [] out hstart hrun
    subst hout
    refine ⟨by simp, ?_, ?_, ?_, by simpa using hchain, fun h => absurd h hshort⟩
    · intro v hv
      exact hbounds v (by simpa using hv)
    · intro v hv
      simp only [List.nil_append, List.head?_cons, Option.some.injEq] at hv
      subst hv; exact hst
    · intro v hv
      exact hlast v (by simpa using hv)

/-- Witness for claim C9 at a concrete input: a two character text with
window size 10 and overlap 0 terminates with the single whole-text
window, which satisfies every clause. -/
theorem windower_coverage_witness :
    ([(⟨"ab".data, 0, 2⟩ : Window)] ≠ []) ∧
    (∀ w ∈ [(⟨"ab".data, 0, 2⟩ : Window)], w.wend ≤ ("ab".data.length : Int)) ∧
    (∀ w, [(⟨"ab".data, 0, 2⟩ : Window)].head? = some w → w.wstart = 0) ∧
    (∀ w, [(⟨"ab".data, 0, 2⟩ : Window)].getLast? = some w →
      w.wend = ("ab".data.length : Int)) ∧
    List.Chain' (Adj 0) [(⟨"ab".data, 0, 2⟩ : Window)] ∧
    (("ab".data.length : Int) ≤ 10 →
      [(⟨"ab".data, 0, 2⟩ : Window)] = [⟨"ab".data, 0, ("ab".data.length : Int)⟩]) :=
  windower_coverage 1 "ab".data 10 0 [⟨"ab".data, 0, 2⟩]
    (by norm_num) (by norm_num) (by decide)

/-! ## Claim C4: strict nesting of levels in the built tree -/


lemma strictNestList_iff (lvl : Int) (ns : List TreeNode) :
    StrictNestList lvl ns = true ↔
      ∀ c ∈ ns, lvl < c.level ∧ StrictNestB c = true := by
  induction ns with
  | nil => simp [StrictNestList]
  | cons c cs ih =>
    simp only [StrictNestList, Bool.and_eq_true, decide_eq_true_eq, ih,
      List.mem_cons]
    constructor
    · rintro ⟨⟨h1, h2⟩, h3⟩ d hd
      rcases hd with rfl | hd
      · exact ⟨h1, h2⟩
      · exact h3 d hd
    · intro h
      exact ⟨h c (Or.inl rfl), fun d hd => h d (Or.inr hd)⟩


lemma closeP_level (p : PNode) : (closeP p).level = p.level := rfl

lemma closeP_strict {p : PNode} (hp : GoodP p) :
    StrictNestB (closeP p) = true := by
  show StrictNestList p.level p.childrenRev.reverse = true
  rw [strictNestList_iff]
  intro c hc
  exact hp c (List.mem_reverse.mp hc)

lemma goodStack_tail {p : PNode} {ps : List PNode}
    (h : GoodStack (p :: ps)) : GoodStack ps :=
  ⟨h.1.tail, fun q hq => h.2 q (List.mem_cons_of_mem _ hq)⟩

lemma goodStack_head_rel {p q : PNode} {ps : List PNode}
    (h : GoodStack (p :: ps)) (hq : ps.head? = some q) : q.level < p.level := by
  cases ps with
  | nil => simp at hq
  | cons q' ps' =>
    simp only [List.head?_cons, Option.some.injEq] at hq
    subst hq
    exact (List.chain'_cons.mp h.1).1

lemma popCarry_good (lvl : Int) :
    ∀ (stack : List PNode) (rootsRev : List TreeNode) (t : TreeNode),
      GoodStack stack → GoodRoots rootsRev → StrictNestB t = true →
      (∀ q, stack.head? = some q → q.level < t.level) →
      GoodStack (popCarry lvl t stack rootsRev).1 ∧
      GoodRoots (popCarry lvl t stack rootsRev).2 ∧
      (∀ p, (popCarry lvl t stack rootsRev).1.head? = some p → p.level < lvl) := by
  intro stack
  induction stack with
  | nil =>
    intro rootsRev t hs hr ht _
    refine ⟨⟨List.chain'_nil, by intro p hp; simp [popCarry] at hp⟩, ?_,
      by intro p hp; simp [popCarry] at hp⟩
    intro u hu
    simp only [popCarry, List.mem_cons] at hu
    rcases hu with rfl | hu
    · exact ht
    · exact hr u hu
  | cons q ps ih =>
    intro rootsRev t hs hr ht hhead
    have hqt : q.level < t.level := hhead q rfl
    have hq' : GoodP { q with childrenRev := t :: q.childrenRev } := by
      intro c hc
      simp only [List.mem_cons] at hc
      rcases hc with rfl | hc
      · exact ⟨hqt, ht⟩
      · exact hs.2 q (List.mem_cons_self _ _) c hc
    rw [popCarry]
    split
    · rename_i hle
      refine ih rootsRev (closeP { q with childrenRev := t :: q.childrenRev })
        (goodStack_tail hs) hr (closeP_strict hq') ?_
      intro u hu
      rw [closeP_level]
      show u.level < q.level
      exact goodStack_head_rel hs hu
    · rename_i hnle
      refine ⟨⟨?_, ?_⟩, hr, ?_⟩
      · cases ps with
        | nil => simp
        | cons p2 ps2 =>
          refine List.chain'_cons.mpr ⟨?_, (List.chain'_cons.mp hs.1).2⟩
          exact (List.chain'_cons.mp hs.1).1
      · intro p hp
        simp only [List.mem_cons] at hp
        rcases hp with rfl | hp
        · exact hq'
        · exact hs.2 p (List.mem_cons_of_mem _ hp)
      · intro p hp
        simp only [List.head?_cons, Option.some.injEq] at hp
        subst hp
        show q.level < lvl
        omega

lemma popGE_good (lvl : Int) (stack : List PNode) (rootsRev : List TreeNode)
    (hs : GoodStack stack) (hr : GoodRoots rootsRev) :
    GoodStack (popGE lvl stack rootsRev).1 ∧
    GoodRoots (popGE lvl stack rootsRev).2 ∧
    (∀ p, (popGE lvl stack rootsRev).1.head? = some p → p.level < lvl) := by
  cases stack with
  | nil =>
    exact ⟨⟨List.chain'_nil, by intro u hu; simp [popGE] at hu⟩, hr,
      by intro u hu; simp [popGE] at hu⟩
  | cons p ps =>
    rw [popGE]
    split
    · rename_i hle
      refine popCarry_good lvl ps rootsRev (closeP p) (goodStack_tail hs) hr
        (closeP_strict (hs.2 p (List.mem_cons_self _ _))) ?_
      intro u hu
      rw [closeP_level]
      exact goodStack_head_rel hs hu
    · rename_i hnle
      refine ⟨hs, hr, ?_⟩
      intro u hu
      simp only [List.head?_cons, Option.some.injEq] at hu
      subst hu
      omega

lemma flushCarry_good :
    ∀ (stack : List PNode) (rootsRev : List TreeNode) (t : TreeNode),
      GoodStack stack → GoodRoots rootsRev → StrictNestB t = true →
      (∀ q, stack.head? = some q → q.level < t.level) →
      GoodRoots (flushCarry t stack rootsRev) := by
  intro stack
  induction stack with
  | nil =>
    intro rootsRev t _ hr ht _
    intro u hu
    simp only [flushCarry, List.mem_cons] at hu
    rcases hu with rfl | hu
    · exact ht
    · exact hr u hu
  | cons q ps ih =>
    intro rootsRev t hs hr ht hhead
    have hqt : q.level < t.level := hhead q rfl
    have hq' : GoodP { q with childrenRev := t :: q.childrenRev } := by
      intro c hc
      simp only [List.mem_cons] at hc
      rcases hc with rfl | hc
      · exact ⟨hqt, ht⟩
      · exact hs.2 q (List.mem_cons_self _ _) c hc
    rw [flushCarry]
    refine ih rootsRev (closeP { q with childrenRev := t :: q.childrenRev })
      (goodStack_tail hs) hr (closeP_strict hq') ?_
    intro u hu
    rw [closeP_level]
    show u.level < q.level
    exact goodStack_head_rel hs hu

lemma flushStack_good (stack : List PNode) (rootsRev : List TreeNode)
    (hs : GoodStack stack) (hr : GoodRoots rootsRev) :
    GoodRoots (flushStack stack rootsRev) := by
  cases stack with
  | nil => exact hr
  | cons p ps =>
    rw [flushStack]
    refine flushCarry_good ps rootsRev (closeP p) (goodStack_tail hs) hr
      (closeP_strict (hs.2 p (List.mem_cons_self _ _))) ?_
    intro u hu
    rw [closeP_level]
    exact goodStack_head_rel hs hu

lemma buildGo_good :
    ∀ (l : List TxtNode) (counter : Nat) (stack : List PNode)
      (rootsRev : List TreeNode),
      GoodStack stack → GoodRoots rootsRev →
      GoodRoots (buildGo l counter stack rootsRev) := by
  intro l
  induction l with
  | nil => intro counter stack rootsRev hs hr; exact flushStack_good _ _ hs hr
  | cons n rest ih =>
    intro counter stack rootsRev hs hr
    rw [buildGo]
    obtain ⟨hs', hr', hhead⟩ := popGE_good n.level stack rootsRev hs hr
    refine ih (counter + 1) _ _ ?_ hr'
    constructor
    · cases hps : (popGE n.level stack rootsRev).1 with
      | nil => simp
      | cons p2 ps2 =>
        refine List.chain'_cons.mpr ⟨?_, ?_⟩
        · exact hhead p2 (by rw [hps]; rfl)
        · rw [hps] at hs'; exact hs'.1
    · intro p hp
      simp only [List.mem_cons] at hp
      rcases hp with rfl | hp
      · intro c hc; simp at hc
      · exact hs'.2 p hp

/-- Claim C4: in every tree built by `build_tree_from_txt_nodes`, each
node's direct children — and hence all its descendants — carry a source
level strictly greater than the node's own source level. -/
theorem tree_builder_strict_nesting (node_list : List TxtNode) :
    (build_tree_from_txt_nodes node_list).all StrictNestB = true := by
  unfold build_tree_from_txt_nodes
  split
  · rfl
  · rw [List.all_eq_true]
    intro t ht
    rw [List.mem_reverse] at ht
    exact buildGo_good node_list 1 [] []
      ⟨List.chain'_nil, by simp⟩ (by intro u hu; simp at hu) t ht

/-! ## Claim C10: the summary short-circuit -/

/-- Claim C10: a node whose text's token count (per the external counter)
is strictly below the threshold triggers no summariser oracle call
(the call indicator is `false`, and the outcome does not depend on the
summariser at all), and the value the orchestrator writes back — into
`summary` for a leaf, into `prefix_summary` for a non-leaf — is the
node's own text verbatim. -/
theorem summary_short_circuit (ct : List Char → Nat) (sm : TreeNode → List Char)
    (th : Nat) (t : TreeNode) (h : ct t.text < th) :
    get_node_summary_txt ct sm th t = (t.text, false) ∧
    (∀ sm', get_node_summary_txt ct sm' th t = (t.text, false)) ∧
    (t.nodes = [] → (annotateTree ct sm th t).summary = some t.text) ∧
    (t.nodes ≠ [] → (annotateTree ct sm th t).prefix_summary = some t.text) := by
  have hval : ∀ sm' : TreeNode → List Char,
      get_node_summary_txt ct sm' th t = (t.text, false) := by
    intro sm'
    rw [get_node_summary_txt, if_pos h]
  refine ⟨hval sm, hval, ?_, ?_⟩
  · intro hleaf
    cases t with
    | mk a b tx cs ce lv s ps ns =>
      have hns : ns = [] := hleaf
      subst hns
      rw [annotateTree]
      simp only [List.isEmpty_nil, if_true]
      show some (get_node_summary_txt ct sm th (.mk a b tx cs ce lv s ps [])).1 =
        some tx
      rw [hval sm]
      rfl
  · intro hleaf
    cases t with
    | mk a b tx cs ce lv s ps ns =>
      have hns : ¬ ns.isEmpty := by
        cases ns with
        | nil => exact absurd rfl hleaf
        | cons c cs' => simp
      rw [annotateTree]
      simp only [if_neg hns]
      show some (get_node_summary_txt ct sm th (.mk a b tx cs ce lv s ps ns)).1 =
        some tx
      rw [hval sm]
      rfl

/-- Witness for claim C10 at a concrete input: a two character leaf node
under threshold 100 is summarised by its own text with no oracle call. -/
theorem summary_short_circuit_witness :
    get_node_summary_txt List.length (fun _ => []) 100
        (.mk "t" "0001" "hi".data 0 2 1 none none []) =
      ((TreeNode.mk "t" "0001" "hi".data 0 2 1 none none []).text, false) ∧
    (∀ sm', get_node_summary_txt List.length sm' 100
        (.mk "t" "0001" "hi".data 0 2 1 none none []) =
      ((TreeNode.mk "t" "0001" "hi".data 0 2 1 none none []).text, false)) ∧
    ((TreeNode.mk "t" "0001" "hi".data 0 2 1 none none []).nodes = [] →
      (annotateTree List.length (fun _ => []) 100
          (.mk "t" "0001" "hi".data 0 2 1 none none [])).summary =
        some (TreeNode.mk "t" "0001" "hi".data 0 2 1 none none []).text) ∧
    ((TreeNode.mk "t" "0001" "hi".data 0 2 1 none none []).nodes ≠ [] →
      (annotateTree List.length (fun _ => []) 100
          (.mk "t" "0001" "hi".data 0 2 1 none none [])).prefix_summary =
        some (TreeNode.mk "t" "0001" "hi".data 0 2 1 none none []).text) :=
  summary_short_circuit List.length (fun _ => []) 100
    (.mk "t" "0001" "hi".data 0 2 1 none none []) (by decide)

end PageIndexTxt
